import Mathlib

/-!
Verification development for the QOI codec of this repository.

The definitions below are a shallow embedding of `src/qoi.rs` and
`src/img.rs`: bytes are `Nat` values below 256, machine-integer casts and
wrapping operations are made explicit with `% 256`, the lazy iterator
pipelines are modelled as fuel-indexed recursive functions over lists, and
code paths that panic in the source are modelled with `Option` (`none` is a
panic).
-/

namespace Qoi

/-- Pixel `[u8; 4]` from the source, with the four channels as named fields. -/
structure Pix where
  r : Nat
  g : Nat
  b : Nat
  a : Nat
deriving DecidableEq, Repr

/-- The all-zero pixel, the initial content of every `seen` slot. -/
def pix0 : Pix := ⟨0, 0, 0, 0⟩

/-- Embeds `fn hash(c: [u8; 4]) -> usize` of qoi.rs. -/
def hash (c : Pix) : Nat :=
  (c.r * 3 + c.g * 5 + c.b * 7 + c.a * 11) % 64

theorem hash_lt (c : Pix) : hash c < 64 :=
  Nat.mod_lt _ (by omega)

/-- Embeds `enum Chunk` of qoi.rs (`u8` fields as `Nat`, `i8` fields as `Int`). -/
inductive Chunk where
  | rgb (r g b : Nat)
  | rgba (r g b a : Nat)
  | index (loc : Nat)
  | diff (dr dg db : Int)
  | luma (dg dr_dg db_dg : Int)
  | run (length : Nat)
deriving DecidableEq, Repr

/-- The `as u8` reinterpretation of an `i8` value: two's complement, i.e. mod 256. -/
def i8u (x : Int) : Nat := (x % 256).toNat

/-- Embeds `impl Iterator for Assembler` of qoi.rs: the on-wire bytes of one
chunk.  `u8` shifts that drop high bits carry an explicit `% 256`. -/
def assembleChunk : Chunk → List Nat
  | .rgb r g b => [254, r, g, b]
  | .rgba r g b a => [255, r, g, b, a]
  | .index loc => [(loc % 256) &&& 63]
  | .diff dr dg db =>
      [64 ||| ((i8u (dr + 2) <<< 4) % 256) ||| ((i8u (dg + 2) <<< 2) % 256) ||| i8u (db + 2)]
  | .luma dg dr_dg db_dg =>
      [128 ||| i8u (dg + 32), ((i8u (dr_dg + 8) <<< 4) % 256) ||| i8u (db_dg + 8)]
  | .run length => [192 ||| (((length % 256) &&& 63) + 255) % 256]

/-- Embeds `impl Iterator for Parser` of qoi.rs: one tag dispatch, returning
the parsed chunk and the unconsumed bytes; `none` is end of input mid-chunk.
The source's `match` on `byte` and on `byte >> 6` is written as an
if-cascade over the same tests, in the same order. -/
def parseChunk : List Nat → Option (Chunk × List Nat)
  | [] => none
  | byte :: rest =>
    if byte = 254 then
      match rest with
      | r :: g :: b :: rest2 => some (.rgb r g b, rest2)
      | _ => none
    else if byte = 255 then
      match rest with
      | r :: g :: b :: a :: rest2 => some (.rgba r g b a, rest2)
      | _ => none
    else if byte >>> 6 = 0 then
      some (.index byte, rest)
    else if byte >>> 6 = 1 then
      some (.diff (((byte >>> 4) &&& 3 : Nat) - 2) (((byte >>> 2) &&& 3 : Nat) - 2)
        ((byte &&& 3 : Nat) - 2), rest)
    else if byte >>> 6 = 2 then
      (rest.head?).map (fun nb =>
        (.luma ((byte &&& 63 : Nat) - 32) ((nb >>> 4 : Nat) - 8) ((nb &&& 15 : Nat) - 8),
          rest.tail))
    else if byte >>> 6 = 3 then
      some (.run ((byte &&& 63) + 1), rest)
    else none

/-- Iterated parsing, with fuel; each step consumes at least one byte, so
fuel equal to the byte count is exact. -/
def parseChunksF : Nat → List Nat → List Chunk
  | 0, _ => []
  | fuel + 1, l =>
    match parseChunk l with
    | some (c, rest) => c :: parseChunksF fuel rest
    | none => []

/-- The full chunk sequence a `Parser` yields on a byte sequence. -/
def parseChunks (l : List Nat) : List Chunk := parseChunksF l.length l

/-- State of `struct Interpreter` of qoi.rs. -/
structure InterpState where
  max_pix : Nat
  pix_count : Nat
  pixel : Pix
  seen : List Pix
deriving DecidableEq, Repr

/-- Embeds `fn interpret`: the initial interpreter state. -/
def initInterp (maxPix : Nat) : InterpState :=
  ⟨maxPix, 0, ⟨0, 0, 0, 255⟩, List.replicate 64 pix0⟩

/-- `u8::wrapping_add_signed`. -/
def wrapAdd (x : Nat) (d : Int) : Nat := (((x : Int) + d) % 256).toNat

/-- Embeds `impl Iterator for Interpreter`/`next` of qoi.rs: one chunk is
consumed, the emitted pixel group and updated state are returned.  `none`
models both the `pix_count >= max_pix` stop and chunk-stream exhaustion. -/
def interpNext (s : InterpState) (cs : List Chunk) :
    Option (List Pix × InterpState × List Chunk) :=
  if s.max_pix ≤ s.pix_count then none
  else
    match cs with
    | [] => none
    | c :: rest =>
      match c with
      | .rgb r g b =>
        some ([⟨r, g, b, s.pixel.a⟩],
          ⟨s.max_pix, s.pix_count + 1, ⟨r, g, b, s.pixel.a⟩,
            s.seen.set (hash ⟨r, g, b, s.pixel.a⟩) ⟨r, g, b, s.pixel.a⟩⟩, rest)
      | .rgba r g b a =>
        some ([⟨r, g, b, a⟩],
          ⟨s.max_pix, s.pix_count + 1, ⟨r, g, b, a⟩,
            s.seen.set (hash ⟨r, g, b, a⟩) ⟨r, g, b, a⟩⟩, rest)
      | .index loc =>
        some ([s.seen.getD loc pix0],
          ⟨s.max_pix, s.pix_count + 1, s.seen.getD loc pix0,
            s.seen.set (hash (s.seen.getD loc pix0)) (s.seen.getD loc pix0)⟩, rest)
      | .diff dr dg db =>
        some ([⟨wrapAdd s.pixel.r dr, wrapAdd s.pixel.g dg, wrapAdd s.pixel.b db, s.pixel.a⟩],
          ⟨s.max_pix, s.pix_count + 1,
            ⟨wrapAdd s.pixel.r dr, wrapAdd s.pixel.g dg, wrapAdd s.pixel.b db, s.pixel.a⟩,
            s.seen.set (hash ⟨wrapAdd s.pixel.r dr, wrapAdd s.pixel.g dg,
              wrapAdd s.pixel.b db, s.pixel.a⟩)
              ⟨wrapAdd s.pixel.r dr, wrapAdd s.pixel.g dg, wrapAdd s.pixel.b db, s.pixel.a⟩⟩,
          rest)
      | .luma dg dr_dg db_dg =>
        some ([⟨wrapAdd s.pixel.r (dr_dg + dg), wrapAdd s.pixel.g dg,
            wrapAdd s.pixel.b (db_dg + dg), s.pixel.a⟩],
          ⟨s.max_pix, s.pix_count + 1,
            ⟨wrapAdd s.pixel.r (dr_dg + dg), wrapAdd s.pixel.g dg,
              wrapAdd s.pixel.b (db_dg + dg), s.pixel.a⟩,
            s.seen.set (hash ⟨wrapAdd s.pixel.r (dr_dg + dg), wrapAdd s.pixel.g dg,
                wrapAdd s.pixel.b (db_dg + dg), s.pixel.a⟩)
              ⟨wrapAdd s.pixel.r (dr_dg + dg), wrapAdd s.pixel.g dg,
                wrapAdd s.pixel.b (db_dg + dg), s.pixel.a⟩⟩, rest)
      | .run length =>
        some (List.replicate (length - 1) s.pixel ++ [s.pixel],
          ⟨s.max_pix, s.pix_count + (length - 1) + 1, s.pixel,
            s.seen.set (hash s.pixel) s.pixel⟩, rest)

/-- Iterated interpretation with fuel; each successful step consumes one
chunk, so chunk count + 1 fuel is exact. -/
def interpRunF : Nat → InterpState → List Chunk → List Pix
  | 0, _, _ => []
  | fuel + 1, s, cs =>
    match interpNext s cs with
    | none => []
    | some (out, s2, rest) => out ++ interpRunF fuel s2 rest

/-- State of `struct Compresser` of qoi.rs. -/
structure CompState where
  last_pix : Pix
  seen : List Pix
deriving DecidableEq, Repr

/-- Embeds `fn compress`: the initial compressor state. -/
def initComp : CompState := ⟨⟨0, 0, 0, 255⟩, List.replicate 64 pix0⟩

/-- Embeds `fn dr_dg_db` of qoi.rs: `i16` widening differences, with no
mod-256 reduction, exactly as the source computes them. -/
def dr_dg_db (pix lastPix : Pix) : Int × Int × Int :=
  ((pix.r : Int) - (lastPix.r : Int), (pix.g : Int) - (lastPix.g : Int),
    (pix.b : Int) - (lastPix.b : Int))

/-- The `while let Some(&next_pix) = self.pix_stream.peek()` loop of
`Compresser::next`: extend the run while the next pixel matches and
`length <= 61`. -/
def runLoop (pix : Pix) : Nat → List Pix → Nat × List Pix
  | length, [] => (length, [])
  | length, nextPix :: rest =>
    if nextPix = pix ∧ length ≤ 61 then runLoop pix (length + 1) rest
    else (length, nextPix :: rest)

/-- The `(-2..=1).contains` tests of the Diff rule in `Compresser::next`. -/
abbrev diffInRange (dr dg db : Int) : Prop :=
  (-2 ≤ dr ∧ dr ≤ 1) ∧ (-2 ≤ dg ∧ dg ≤ 1) ∧ (-2 ≤ db ∧ db ≤ 1)

/-- The `(-32..=31).contains`/`(-8..7).contains` tests of the Luma rule in
`Compresser::next`; note the source's `-8..7` is half-open, excluding 7. -/
abbrev lumaInRange (dg dr_dg db_dg : Int) : Prop :=
  (-32 ≤ dg ∧ dg ≤ 31) ∧ (-8 ≤ dr_dg ∧ dr_dg < 7) ∧ (-8 ≤ db_dg ∧ db_dg < 7)

/-- The non-run tail of `Compresser::next`, with the deltas abstracted:
index / diff / luma / rgb / rgba selection with the source's seen-table and
last-pixel updates. -/
def emitPixD (s : CompState) (pix : Pix) (dr dg db : Int) : Chunk × CompState :=
  if s.seen.getD (hash pix) pix0 = pix then
    (.index (hash pix), ⟨pix, s.seen⟩)
  else if diffInRange dr dg db then
    (.diff dr dg db, ⟨pix, s.seen.set (hash pix) pix⟩)
  else if lumaInRange dg (dr - dg) (db - dg) then
    (.luma dg (dr - dg) (db - dg), ⟨pix, s.seen.set (hash pix) pix⟩)
  else if pix.a = s.last_pix.a then
    (.rgb pix.r pix.g pix.b, ⟨pix, s.seen.set (hash pix) pix⟩)
  else
    (.rgba pix.r pix.g pix.b pix.a, ⟨pix, s.seen.set (hash pix) pix⟩)

/-- The non-run tail of `Compresser::next` with the deltas of `dr_dg_db`. -/
def emitPix (s : CompState) (pix : Pix) : Chunk × CompState :=
  emitPixD s pix (dr_dg_db pix s.last_pix).1 (dr_dg_db pix s.last_pix).2.1
    (dr_dg_db pix s.last_pix).2.2

/-- Embeds `impl Iterator for Compresser`/`next` of qoi.rs: one chunk is
emitted; a run is emitted only when the source's `length > 1` test passes. -/
def compressNext (s : CompState) (ps : List Pix) :
    Option (Chunk × CompState × List Pix) :=
  match ps with
  | [] => none
  | pix :: rest =>
    if s.last_pix = pix then
      if 1 < (runLoop pix 1 rest).1 then
        some (.run (runLoop pix 1 rest).1, s, (runLoop pix 1 rest).2)
      else
        some ((emitPix s pix).1, (emitPix s pix).2, (runLoop pix 1 rest).2)
    else
      some ((emitPix s pix).1, (emitPix s pix).2, rest)

/-- Iterated compression with fuel; each step consumes at least one pixel,
so the pixel count is enough fuel. -/
def compressRunF : Nat → CompState → List Pix → List Chunk
  | 0, _, _ => []
  | fuel + 1, s, ps =>
    match compressNext s ps with
    | none => []
    | some (c, s2, rest) => c :: compressRunF fuel s2 rest

/-- The full chunk sequence the `Compresser` yields from the initial state. -/
def compressAll (ps : List Pix) : List Chunk :=
  compressRunF ps.length initComp ps

/-- Big-endian `u32::to_be_bytes`. -/
def be4 (n : Nat) : List Nat :=
  [n / 2 ^ 24 % 256, n / 2 ^ 16 % 256, n / 2 ^ 8 % 256, n % 256]

/-- Big-endian `u32::from_be_bytes`. -/
def be4val (b0 b1 b2 b3 : Nat) : Nat :=
  ((b0 * 256 + b1) * 256 + b2) * 256 + b3

/-- Grouping of the raw byte sequence into `[u8; 4]` pixels, as
`pixels.chunks(4)` plus the compressor's `try_into().unwrap()`; a trailing
short group is the unwrap panic, modelled as `none`. -/
def groupPix : List Nat → Option (List Pix)
  | [] => some []
  | r :: g :: b :: a :: rest => (groupPix rest).map (fun ps => ⟨r, g, b, a⟩ :: ps)
  | _ => none

/-- The four bytes of a pixel, for the flattened decoder output. -/
def pixBytes (p : Pix) : List Nat := [p.r, p.g, p.b, p.a]

/-- The eight-byte QOI end marker appended by `encode_img`. -/
def endMarker : List Nat := [0, 0, 0, 0, 0, 0, 0, 1]

/-- The `"qoif"` magic bytes. -/
def qoifMagic : List Nat := [113, 111, 105, 102]

/-- Embeds `pub fn encode_img` of qoi.rs: header (magic, dimensions,
channels 3 iff every alpha is 255, colorspace 1), compressed and assembled
body, end marker. -/
def encode_img (width height : Nat) (pixels : List Nat) : Option (List Nat) :=
  (groupPix pixels).map (fun ps =>
    qoifMagic ++ be4 width ++ be4 height ++
      [(if ps.all (fun p => p.a == 255) then 3 else 4), 1] ++
      ((compressRunF ps.length initComp ps).map assembleChunk).flatten ++ endMarker)

/-- Embeds `pub fn parse_img` of qoi.rs: checked magic/channels/colorspace
header, then the fused Parser → Interpreter pipeline, flattened to bytes.
The source's asserts and unwraps are `none`. -/
def parse_img (data : List Nat) : Option (Nat × Nat × List Nat) :=
  match data with
  | m0 :: m1 :: m2 :: m3 :: w0 :: w1 :: w2 :: w3 :: h0 :: h1 :: h2 :: h3 :: ch :: cs :: rest =>
    if m0 = 113 ∧ m1 = 111 ∧ m2 = 105 ∧ m3 = 102 ∧ (ch = 3 ∨ ch = 4) ∧ (cs = 0 ∨ cs = 1) then
      some (be4val w0 w1 w2 w3, be4val h0 h1 h2 h3,
        ((interpRunF (parseChunks rest).length.succ
            (initInterp (be4val w0 w1 w2 w3 * be4val h0 h1 h2 h3))
            (parseChunks rest)).map pixBytes).flatten)
    else none
  | _ => none

/-- Embeds `RawImage::to_bytes` of img.rs. -/
def to_bytes (width height : Nat) (data : List Nat) : List Nat :=
  be4 width ++ be4 height ++ data

/-- Embeds `RawImage::from_bytes` of img.rs, including its slice bound
`bytes[8..width*height*4]` exactly as written; an out-of-range slice is a
panic, modelled as `none`. -/
def from_bytes (bytes : List Nat) : Option (Except String (Nat × Nat × List Nat)) :=
  match bytes with
  | b0 :: b1 :: b2 :: b3 :: b4 :: b5 :: b6 :: b7 :: _ =>
    if bytes.length ≠ be4val b0 b1 b2 b3 * be4val b4 b5 b6 b7 * 4 + 8 then
      some (Except.error ("Image dimensions conflict with byte stream length"))
    else if be4val b0 b1 b2 b3 * be4val b4 b5 b6 b7 * 4 < 8 then none
    else
      some (Except.ok (be4val b0 b1 b2 b3, be4val b4 b5 b6 b7,
        (bytes.take (be4val b0 b1 b2 b3 * be4val b4 b5 b6 b7 * 4)).drop 8))
  | _ => none

/-- Validity of a chunk: exactly the chunks the byte-level `Parser` can
produce (byte fields below 256, `loc ≤ 63`, `Diff` deltas in `[-2, 1]`,
`Luma` fields in `[-32, 31]` × `[-8, 7]`², run lengths in `[1, 62]`). -/
def chunkValid : Chunk → Prop
  | .rgb r g b => r < 256 ∧ g < 256 ∧ b < 256
  | .rgba r g b a => r < 256 ∧ g < 256 ∧ b < 256 ∧ a < 256
  | .index loc => loc ≤ 63
  | .diff dr dg db => (-2 ≤ dr ∧ dr ≤ 1) ∧ (-2 ≤ dg ∧ dg ≤ 1) ∧ (-2 ≤ db ∧ db ≤ 1)
  | .luma dg dr_dg db_dg =>
      (-32 ≤ dg ∧ dg ≤ 31) ∧ (-8 ≤ dr_dg ∧ dr_dg ≤ 7) ∧ (-8 ≤ db_dg ∧ db_dg ≤ 7)
  | .run length => 1 ≤ length ∧ length ≤ 62

/-! Helper lemmas. -/

theorem getD_set_self {α : Type} (l : List α) (i : Nat) (x d : α) (h : i < l.length) :
    (l.set i x).getD i d = x := by
  induction l generalizing i with
  | nil => simp at h
  | cons a t ih =>
    cases i with
    | zero => rfl
    | succ j => exact ih j (by simpa using h)

theorem lor128f : ∀ x : Fin 64, 128 ||| (x : Nat) = 128 + (x : Nat) := by decide

theorem and63_128f : ∀ x : Fin 64, (128 + (x : Nat)) &&& 63 = (x : Nat) := by decide

theorem lor16f : ∀ a b : Fin 16, ((a : Nat) * 16) ||| (b : Nat) = (a : Nat) * 16 + (b : Nat) := by
  decide

theorem and15f : ∀ a b : Fin 16, ((a : Nat) * 16 + (b : Nat)) &&& 15 = (b : Nat) := by decide

theorem runLoop_bounds (pix : Pix) :
    ∀ (ps : List Pix) (n : Nat), n ≤ 62 →
      n ≤ (runLoop pix n ps).1 ∧ (runLoop pix n ps).1 ≤ 62 := by
  intro ps
  induction ps with
  | nil => exact fun n h => ⟨Nat.le_refl n, h⟩
  | cons q rest ih =>
    intro n h
    by_cases hc : q = pix ∧ n ≤ 61
    · obtain ⟨ha, hb⟩ := ih (n + 1) (by omega)
      simp only [runLoop, if_pos hc]
      exact ⟨by omega, hb⟩
    · simp only [runLoop, if_neg hc]
      exact ⟨Nat.le_refl n, h⟩

theorem emitPix_not_run (s : CompState) (pix : Pix) (n : Nat) :
    (emitPix s pix).1 ≠ .run n := by
  unfold emitPix emitPixD
  split_ifs <;> simp

theorem emitPix_seen (s : CompState) (pix : Pix) (h64 : s.seen.length = 64) :
    (emitPix s pix).2.last_pix = pix ∧
      (emitPix s pix).2.seen.getD (hash pix) pix0 = pix ∧
      (emitPix s pix).2.seen.length = 64 := by
  have hh : hash pix < s.seen.length := by have := hash_lt pix; omega
  unfold emitPix emitPixD
  split_ifs with h1 h2 h3 h4
  · exact ⟨rfl, h1, h64⟩
  · exact ⟨rfl, getD_set_self _ _ _ _ hh, by simpa using h64⟩
  · exact ⟨rfl, getD_set_self _ _ _ _ hh, by simpa using h64⟩
  · exact ⟨rfl, getD_set_self _ _ _ _ hh, by simpa using h64⟩
  · exact ⟨rfl, getD_set_self _ _ _ _ hh, by simpa using h64⟩

/-! Claim theorems. -/

/-- C1: encode/decode is NOT the identity on every valid raster.  On the
1×1 raster whose single pixel is `(0, 0, 0, 254)`, the compressor emits
`Diff{0,0,0}` (its Diff rule never checks alpha), so decoding the encoder's
output yields `(0, 0, 0, 255)` instead of the original pixel. -/
theorem c1_roundtrip_broken :
    (encode_img 1 1 [0, 0, 0, 254]).bind parse_img = some (1, 1, [0, 0, 0, 255]) ∧
    ([0, 0, 0, 255] : List Nat) ≠ [0, 0, 0, 254] := by decide

/-- C3: a `Diff` chunk and a `Luma` chunk ARE emitted for pixels whose
alpha differs from the previous pixel's alpha — the source's Diff and Luma
rules test only the r/g/b deltas.  From the initial state (previous
`(0,0,0,255)`), the pixel `(0,0,0,254)` yields `Diff{0,0,0}` and the pixel
`(6,0,0,254)` yields `Luma{0,6,0}` although both change alpha. -/
theorem c3_diff_luma_emitted_despite_alpha_change :
    (⟨0, 0, 0, 254⟩ : Pix).a ≠ initComp.last_pix.a ∧
    compressAll [⟨0, 0, 0, 254⟩] = [.diff 0 0 0] ∧
    (⟨6, 0, 0, 254⟩ : Pix).a ≠ initComp.last_pix.a ∧
    compressAll [⟨6, 0, 0, 254⟩] = [.luma 0 6 0] := by decide

/-- C4: the channel deltas are NOT computed with wrap-around modulo 256:
`dr_dg_db` widens to exact signed differences, so with previous
`(255,0,0,255)` the pixel `(0,0,0,255)` gets `dr = -255` (not `+1`) and is
encoded as `Rgb{0,0,0}`, not as `Diff{+1,0,0}`. -/
theorem c4_no_wraparound :
    dr_dg_db ⟨0, 0, 0, 255⟩ ⟨255, 0, 0, 255⟩ = (-255, 0, 0) ∧
    compressAll [⟨255, 0, 0, 255⟩, ⟨0, 0, 0, 255⟩] = [.rgb 255 0 0, .rgb 0 0 0] ∧
    ([Chunk.rgb 255 0 0, .rgb 0 0 0] ≠ [.rgb 255 0 0, .diff 1 0 0]) := by decide

/-- C5: the Luma rule REJECTS the upper boundary value 7: the source tests
`(-8..7).contains`, a half-open range, so with previous `(0,0,0,255)` the
pixel `(7,0,0,255)` (for which `dr - dg = 7`) is encoded as `Rgb{7,0,0}`
rather than `Luma{0,7,0}`, and symmetrically for `db - dg = 7`. -/
theorem c5_luma_upper_boundary_rejected :
    dr_dg_db ⟨7, 0, 0, 255⟩ ⟨0, 0, 0, 255⟩ = (7, 0, 0) ∧
    compressAll [⟨7, 0, 0, 255⟩] = [.rgb 7 0 0] ∧
    compressAll [⟨0, 0, 7, 255⟩] = [.rgb 0 0 7] := by decide

/-- C6: for every chunk the Parser can produce, assembling it and parsing
the resulting bytes yields the chunk back, with all bytes consumed. -/
theorem c6_parse_assemble (c : Chunk) (h : chunkValid c) :
    parseChunk (assembleChunk c) = some (c, []) := by
  cases c with
  | rgb r g b => rfl
  | rgba r g b a => rfl
  | index loc =>
    simp only [chunkValid] at h
    interval_cases loc <;> rfl
  | diff dr dg db =>
    simp only [chunkValid] at h
    obtain ⟨⟨h1, h2⟩, ⟨h3, h4⟩, h5, h6⟩ := h
    interval_cases dr <;> interval_cases dg <;> interval_cases db <;> rfl
  | luma dg u v =>
    simp only [chunkValid] at h
    obtain ⟨⟨h1, h2⟩, ⟨h3, h4⟩, h5, h6⟩ := h
    have e1 : i8u (dg + 32) = (dg + 32).toNat := by
      unfold i8u; rw [Int.emod_eq_of_lt (by omega) (by omega)]
    have e2 : i8u (u + 8) = (u + 8).toNat := by
      unfold i8u; rw [Int.emod_eq_of_lt (by omega) (by omega)]
    have e3 : i8u (v + 8) = (v + 8).toNat := by
      unfold i8u; rw [Int.emod_eq_of_lt (by omega) (by omega)]
    have hn : (dg + 32).toNat < 64 := by omega
    have hm : (u + 8).toNat < 16 := by omega
    have hk : (v + 8).toNat < 16 := by omega
    have hb1 : (128 : Nat) ||| (dg + 32).toNat = 128 + (dg + 32).toNat :=
      lor128f ⟨(dg + 32).toNat, hn⟩
    have hb2 : ((u + 8).toNat * 16) ||| (v + 8).toNat = (u + 8).toNat * 16 + (v + 8).toNat :=
      lor16f ⟨(u + 8).toNat, hm⟩ ⟨(v + 8).toNat, hk⟩
    have hsl : (u + 8).toNat <<< 4 = (u + 8).toNat * 16 := by
      rw [Nat.shiftLeft_eq]
    have hmod : ((u + 8).toNat * 16) % 256 = (u + 8).toNat * 16 := Nat.mod_eq_of_lt (by omega)
    show parseChunk [128 ||| i8u (dg + 32), ((i8u (u + 8) <<< 4) % 256) ||| i8u (v + 8)] = _
    rw [e1, e2, e3, hsl, hmod, hb1, hb2]
    have hsr : (128 + (dg + 32).toNat) >>> 6 = 2 := by
      rw [Nat.shiftRight_eq_div_pow]; omega
    simp only [parseChunk]
    rw [if_neg (by omega), if_neg (by omega), hsr]
    norm_num
    have hc1 : (128 + (dg + 32).toNat) &&& 63 = (dg + 32).toNat :=
      and63_128f ⟨(dg + 32).toNat, hn⟩
    have hc2 : ((u + 8).toNat * 16 + (v + 8).toNat) >>> 4 = (u + 8).toNat := by
      rw [Nat.shiftRight_eq_div_pow]; omega
    have hc3 : ((u + 8).toNat * 16 + (v + 8).toNat) &&& 15 = (v + 8).toNat :=
      and15f ⟨(u + 8).toNat, hm⟩ ⟨(v + 8).toNat, hk⟩
    rw [hc1, hc2, hc3]
    have g1 : (((dg + 32).toNat : Nat) : Int) - 32 = dg := by omega
    have g2 : (((u + 8).toNat : Nat) : Int) - 8 = u := by omega
    have g3 : (((v + 8).toNat : Nat) : Int) - 8 = v := by omega
    exact ⟨g1, g2, g3⟩
  | run length =>
    simp only [chunkValid] at h
    obtain ⟨h1, h2⟩ := h
    interval_cases length <;> rfl

/-- C6 witness: the chunk `Luma{31, 7, -8}`, at the claimed extremes, is
valid and round-trips through Assembler then Parser. -/
theorem c6_parse_assemble_witness :
    chunkValid (.luma 31 7 (-8)) ∧
      parseChunk (assembleChunk (.luma 31 7 (-8))) = some (.luma 31 7 (-8), []) :=
  ⟨by simp only [chunkValid]; omega,
    c6_parse_assemble _ (by simp only [chunkValid]; omega)⟩

/-- C10: `from_bytes` does not invert `to_bytes`.  Its slice bound is
`bytes[8 .. 4·W·H]` instead of `bytes[8 .. 8 + 4·W·H]`, so the serialized
raster `(2, 1, [1..8])` deserializes to `(2, 1, [])` (the payload is
dropped), a 1×1 raster makes the slice panic, while a trailing byte-count
mismatch does return the length error. -/
theorem c10_from_bytes_truncates :
    to_bytes 2 1 [1, 2, 3, 4, 5, 6, 7, 8] =
      [0, 0, 0, 2, 0, 0, 0, 1, 1, 2, 3, 4, 5, 6, 7, 8] ∧
    from_bytes (to_bytes 2 1 [1, 2, 3, 4, 5, 6, 7, 8]) = some (.ok (2, 1, [])) ∧
    from_bytes (to_bytes 1 1 [9, 9, 9, 9]) = none ∧
    from_bytes (to_bytes 2 1 [1, 2, 3, 4, 5, 6, 7]) =
      some (.error ("Image dimensions conflict with byte stream length")) :=
  ⟨rfl, rfl, rfl, rfl⟩

/-- C2 counterexample: a lone repeated pixel does NOT yield `Run{1}` (the
source only returns a run when `length > 1`), and 63 identical
`(0,0,0,255)` pixels yield `Run{62}` followed by `Diff{0,0,0}`, not
`Run{62}` followed by `Run{1}`. -/
theorem c2_counterexample :
    compressAll [⟨0, 0, 0, 255⟩] = [.diff 0 0 0] ∧
    (Chunk.diff 0 0 0 ≠ .run 1) ∧
    compressAll (List.replicate 63 ⟨0, 0, 0, 255⟩) = [.run 62, .diff 0 0 0] ∧
    ([Chunk.run 62, .diff 0 0 0] ≠ [.run 62, .run 1]) := by decide

/-- C2 amended: when the next pixel equals the previous one AND at least
one further equal pixel follows, equal pixels are consumed greedily (cap
62) and `Run{length}` with `2 ≤ length ≤ 62` is emitted with the state
untouched; a lone repeated pixel instead falls through to the non-run
rules, so 63 identical `(0,0,0,255)` pixels yield `Run{62}` then
`Diff{0,0,0}`. -/
theorem c2_run_amended :
    (∀ (s : CompState) (pix : Pix) (rest : List Pix),
        s.last_pix = pix → rest.head? = some pix →
        ∃ n rest2, compressNext s (pix :: rest) = some (.run n, s, rest2) ∧
          2 ≤ n ∧ n ≤ 62) ∧
    (∀ (s : CompState) (pix : Pix), s.last_pix = pix →
        ∃ c s2, compressNext s [pix] = some (c, s2, []) ∧ ∀ n, c ≠ .run n) ∧
    compressAll (List.replicate 63 ⟨0, 0, 0, 255⟩) = [.run 62, .diff 0 0 0] := by
  refine ⟨?_, ?_, by decide⟩
  · intro s pix rest hl hh
    cases rest with
    | nil => simp at hh
    | cons q rest2 =>
      have hq : q = pix := by simpa using hh
      have hstep : runLoop pix 1 (q :: rest2) = runLoop pix 2 rest2 := by
        simp only [runLoop]
        rw [if_pos ⟨hq, by omega⟩]
      obtain ⟨hge, hle⟩ := runLoop_bounds pix rest2 2 (by omega)
      refine ⟨(runLoop pix 2 rest2).1, (runLoop pix 2 rest2).2, ?_, by omega, hle⟩
      simp only [compressNext, if_pos hl, hstep]
      rw [if_pos (by omega : 1 < (runLoop pix 2 rest2).1)]
  · intro s pix hl
    refine ⟨(emitPix s pix).1, (emitPix s pix).2, ?_, emitPix_not_run s pix⟩
    simp only [compressNext, if_pos hl]
    have h1 : runLoop pix 1 ([] : List Pix) = (1, []) := rfl
    rw [h1]
    norm_num

/-- C2 witness: from the initial state, two equal `(0,0,0,255)` pixels make
the run rule fire with a length in `[2, 62]`. -/
theorem c2_run_amended_witness :
    initComp.last_pix = ⟨0, 0, 0, 255⟩ ∧
      ∃ n rest2, compressNext initComp [⟨0, 0, 0, 255⟩, ⟨0, 0, 0, 255⟩] =
        some (.run n, initComp, rest2) ∧ 2 ≤ n ∧ n ≤ 62 :=
  ⟨rfl, c2_run_amended.1 initComp ⟨0, 0, 0, 255⟩ [⟨0, 0, 0, 255⟩] rfl rfl⟩

/-- C7 counterexample: the decoder reports NO error on overrun or
truncation.  A 1×2 image whose body is the single chunk `Run{3}` decodes to
an overlong 12-byte pixel sequence (target was 8 bytes), and the same
header with an empty body decodes to an empty pixel sequence; both are
returned to the caller as successes. -/
theorem c7_counterexample :
    ((parse_img [113, 111, 105, 102, 0, 0, 0, 1, 0, 0, 0, 2, 4, 1, 194]).map
        (fun t => t.2.2.length)) = some 12 ∧ (12 : Nat) ≠ 4 * (1 * 2) ∧
    ((parse_img [113, 111, 105, 102, 0, 0, 0, 1, 0, 0, 0, 2, 4, 1]).map
        (fun t => t.2.2.length)) = some 0 ∧ (0 : Nat) ≠ 4 * (1 * 2) := by decide

/-- C7 amended: the Interpreter consumes no further chunk once
`produced ≥ target` (extra chunks are ignored), but a single chunk that
drives the count past the target is processed in full and its surplus
pixels are returned with no `OverrunRaster` error, and a chunk stream that
ends early just yields the short pixel sequence with no `TruncatedRaster`
error. -/
theorem c7_stop_amended :
    (∀ (s : InterpState) (cs : List Chunk), s.max_pix ≤ s.pix_count →
        interpNext s cs = none) ∧
    parse_img [113, 111, 105, 102, 0, 0, 0, 1, 0, 0, 0, 2, 4, 1, 194] =
      some (1, 2, [0, 0, 0, 255, 0, 0, 0, 255, 0, 0, 0, 255]) ∧
    parse_img [113, 111, 105, 102, 0, 0, 0, 1, 0, 0, 0, 2, 4, 1] = some (1, 2, []) := by
  refine ⟨?_, by decide, by decide⟩
  intro s cs h
  unfold interpNext
  rw [if_pos h]

/-- C7 witness: a state that has already produced its target emits nothing
more. -/
theorem c7_stop_amended_witness :
    interpNext ⟨0, 0, ⟨0, 0, 0, 255⟩, List.replicate 64 pix0⟩ [] = none :=
  c7_stop_amended.1 _ [] (Nat.le_refl 0)

/-- C8: the encode driver writes channels 3 exactly when every pixel's
alpha is 255 (else 4), writes colorspace 1, and appends the eight-byte end
marker after the assembled chunk stream. -/
theorem c8_encode_header (width height : Nat) (pixels : List Nat) (ps : List Pix)
    (hps : groupPix pixels = some ps) :
    ∃ ch body, encode_img width height pixels =
        some (qoifMagic ++ be4 width ++ be4 height ++ [ch, 1] ++ body ++ endMarker) ∧
      (ch = 3 ∨ ch = 4) ∧ (ch = 3 ↔ ∀ p ∈ ps, p.a = 255) := by
  have key : ps.all (fun p => p.a == 255) = true ↔ ∀ p ∈ ps, p.a = 255 := by
    rw [List.all_eq_true]
    simp only [beq_iff_eq]
  refine ⟨if ps.all (fun p => p.a == 255) then 3 else 4,
    ((compressRunF ps.length initComp ps).map assembleChunk).flatten, ?_, ?_, ?_⟩
  · unfold encode_img
    rw [hps, Option.map_some']
  · by_cases hall : ps.all (fun p => p.a == 255) = true <;> simp [hall]
  · by_cases hall : ps.all (fun p => p.a == 255) = true
    · rw [if_pos hall]
      exact iff_of_true rfl (key.mp hall)
    · rw [if_neg hall]
      exact iff_of_false (by omega) (fun hf => hall (key.mpr hf))

/-- C8 witness: on the opaque 1×1 raster `[1,2,3,255]` the header facts
hold, with the channels byte decided by the all-alpha-255 test. -/
theorem c8_encode_header_witness :
    groupPix [1, 2, 3, 255] = some [⟨1, 2, 3, 255⟩] ∧
      ∃ ch body, encode_img 1 1 [1, 2, 3, 255] =
          some (qoifMagic ++ be4 1 ++ be4 1 ++ [ch, 1] ++ body ++ endMarker) ∧
        (ch = 3 ∨ ch = 4) ∧ (ch = 3 ↔ ∀ p ∈ [(⟨1, 2, 3, 255⟩ : Pix)], p.a = 255) :=
  ⟨rfl, c8_encode_header 1 1 [1, 2, 3, 255] [⟨1, 2, 3, 255⟩] rfl⟩

/-- C9 counterexample: a run at the very start of the stream leaves the
compressor's seen table untouched, so after `Run{2}` has emitted the pixel
`(0,0,0,255)` twice, slot `hash (0,0,0,255)` still holds `(0,0,0,0)`. -/
theorem c9_counterexample :
    compressNext initComp [⟨0, 0, 0, 255⟩, ⟨0, 0, 0, 255⟩] =
      some (.run 2, initComp, []) ∧
    initComp.seen.getD (hash ⟨0, 0, 0, 255⟩) pix0 ≠ ⟨0, 0, 0, 255⟩ := by decide

/-- C9 amended: both tables start as 64 copies of `(0,0,0,0)`; after every
interpreter step all emitted pixels equal the new previous pixel and its
hash slot holds it; after every NON-run compressor chunk the emitted
pixel's hash slot holds it.  (A run chunk leaves the compressor table
untouched, so a run of the never-emitted initial pixel violates the
unrestricted claim.) -/
theorem c9_seen_amended :
    (initComp.seen = List.replicate 64 pix0 ∧
      ∀ t, (initInterp t).seen = List.replicate 64 pix0) ∧
    (∀ (s : InterpState) (cs : List Chunk) (out : List Pix) (s2 : InterpState)
        (rest : List Chunk),
        s.seen.length = 64 → interpNext s cs = some (out, s2, rest) →
        (∀ p ∈ out, p = s2.pixel) ∧ s2.seen.getD (hash s2.pixel) pix0 = s2.pixel ∧
          s2.seen.length = 64) ∧
    (∀ (s : CompState) (ps : List Pix) (c : Chunk) (s2 : CompState) (rest : List Pix),
        s.seen.length = 64 → compressNext s ps = some (c, s2, rest) →
        (∀ n, c ≠ .run n) →
        s2.seen.getD (hash s2.last_pix) pix0 = s2.last_pix ∧ s2.seen.length = 64) := by
  refine ⟨⟨rfl, fun _ => rfl⟩, ?_, ?_⟩
  · intro s cs out s2 rest h64 heq
    unfold interpNext at heq
    by_cases hstop : s.max_pix ≤ s.pix_count
    · rw [if_pos hstop] at heq
      exact absurd heq (by simp)
    rw [if_neg hstop] at heq
    cases cs with
    | nil => simp at heq
    | cons c rest0 =>
      have hlt : ∀ q : Pix, hash q < s.seen.length := fun q => by
        have := hash_lt q; omega
      cases c with
      | rgb r g b =>
        simp only [Option.some.injEq, Prod.mk.injEq] at heq
        obtain ⟨hout, hs2, -⟩ := heq
        subst hout; subst hs2
        exact ⟨fun p hp => by simpa using hp,
          getD_set_self _ _ _ _ (hlt _), by simpa using h64⟩
      | rgba r g b a =>
        simp only [Option.some.injEq, Prod.mk.injEq] at heq
        obtain ⟨hout, hs2, -⟩ := heq
        subst hout; subst hs2
        exact ⟨fun p hp => by simpa using hp,
          getD_set_self _ _ _ _ (hlt _), by simpa using h64⟩
      | index loc =>
        simp only [Option.some.injEq, Prod.mk.injEq] at heq
        obtain ⟨hout, hs2, -⟩ := heq
        subst hout; subst hs2
        exact ⟨fun p hp => by simpa using hp,
          getD_set_self _ _ _ _ (hlt _), by simpa using h64⟩
      | diff dr dg db =>
        simp only [Option.some.injEq, Prod.mk.injEq] at heq
        obtain ⟨hout, hs2, -⟩ := heq
        subst hout; subst hs2
        exact ⟨fun p hp => by simpa using hp,
          getD_set_self _ _ _ _ (hlt _), by simpa using h64⟩
      | luma dg dr_dg db_dg =>
        simp only [Option.some.injEq, Prod.mk.injEq] at heq
        obtain ⟨hout, hs2, -⟩ := heq
        subst hout; subst hs2
        exact ⟨fun p hp => by simpa using hp,
          getD_set_self _ _ _ _ (hlt _), by simpa using h64⟩
      | run length =>
        simp only [Option.some.injEq, Prod.mk.injEq] at heq
        obtain ⟨hout, hs2, -⟩ := heq
        subst hout; subst hs2
        refine ⟨?_, getD_set_self _ _ _ _ (hlt _), by simpa using h64⟩
        intro p hp
        rcases List.mem_append.mp hp with hmem | hmem
        · exact List.eq_of_mem_replicate hmem
        · simpa using hmem
  · intro s ps c s2 rest h64 heq hnr
    cases ps with
    | nil => simp [compressNext] at heq
    | cons pix rest0 =>
      simp only [compressNext] at heq
      by_cases hl : s.last_pix = pix
      · rw [if_pos hl] at heq
        by_cases hrun : 1 < (runLoop pix 1 rest0).1
        · rw [if_pos hrun] at heq
          simp only [Option.some.injEq, Prod.mk.injEq] at heq
          exact absurd heq.1.symm (hnr _)
        · rw [if_neg hrun] at heq
          simp only [Option.some.injEq, Prod.mk.injEq] at heq
          obtain ⟨-, hs2, -⟩ := heq
          subst hs2
          obtain ⟨hlast, hseen, hlen⟩ := emitPix_seen s pix h64
          rw [hlast]
          exact ⟨hseen, hlen⟩
      · rw [if_neg hl] at heq
        simp only [Option.some.injEq, Prod.mk.injEq] at heq
        obtain ⟨-, hs2, -⟩ := heq
        subst hs2
        obtain ⟨hlast, hseen, hlen⟩ := emitPix_seen s pix h64
        rw [hlast]
        exact ⟨hseen, hlen⟩

/-- The interpreter state after decoding `Rgb{5,6,7}` from the initial 1×1
state, used by the C9 witness. -/
def c9wState : InterpState :=
  ⟨1, 1, ⟨5, 6, 7, 255⟩, (initInterp 1).seen.set (hash ⟨5, 6, 7, 255⟩) ⟨5, 6, 7, 255⟩⟩

/-- C9 witness: the interpreter part of the invariant instantiated on
decoding one `Rgb{5,6,7}` chunk from the initial state. -/
theorem c9_seen_amended_witness :
    (initInterp 1).seen.length = 64 ∧
      ((∀ p ∈ [(⟨5, 6, 7, 255⟩ : Pix)], p = c9wState.pixel) ∧
        c9wState.seen.getD (hash c9wState.pixel) pix0 = c9wState.pixel ∧
        c9wState.seen.length = 64) :=
  ⟨rfl, c9_seen_amended.2.1 (initInterp 1) [.rgb 5 6 7] [⟨5, 6, 7, 255⟩] c9wState [] rfl rfl⟩

end Qoi
